import Mathlib

/- Shallow embedding of the selection-and-acquisition pipeline of
   `src/main.py` (Python Podcast Downloader).  Strings are modelled as
   lists of characters; the Python builtins the code relies on
   (`str.strip`, `str.lower`, `str.replace`, `int`, `str.split`,
   `re.search`, `re.sub`) are modelled on the ASCII fragment the
   program manipulates. -/

namespace Podcast

/-- Characters treated as whitespace by Python `str.strip()` and `\s`
    (ASCII fragment). -/
def pyIsSpace (c : Char) : Bool :=
  c = ' ' || c = '\t' || c = '\n' || c = '\r' || c = '\x0b' || c = '\x0c'

/-- Python `s.strip()`: drop whitespace from both ends. -/
def pyStrip (l : List Char) : List Char :=
  ((l.dropWhile pyIsSpace).reverse.dropWhile pyIsSpace).reverse

/-- Normalization performed by `parse_range_input` (line 163):
    `user_input.strip().lower().replace(' ', '')`. -/
def normalize (l : List Char) : List Char :=
  ((pyStrip l).map Char.toLower).filter (fun c => c ≠ ' ')

/-- Numeric value of a decimal digit character. -/
def digitVal (c : Char) : Nat := c.toNat - '0'.toNat

/-- Value of a list of decimal digit characters, most significant first. -/
def digitsToNat (l : List Char) : Nat := l.foldl (fun a c => a * 10 + digitVal c) 0

/-- Continuation of `digitPart` after at least one digit has been read
    (its value accumulated in `acc`): Python's int literal digit part
    allows single underscores between digits. -/
def digitPartAux : Nat → List Char → Option Nat
  | acc, [] => some acc
  | acc, c :: rest =>
    if c = '_' then
      match rest with
      | [] => none
      | c2 :: rest2 =>
        if c2.isDigit then digitPartAux (acc * 10 + digitVal c2) rest2 else none
    else
      if c.isDigit then digitPartAux (acc * 10 + digitVal c) rest else none

/-- Digit part of a Python decimal int literal: `digit (('_')? digit)*`;
    `none` if the list is not exactly of that form. -/
def digitPart : List Char → Option Nat
  | [] => none
  | c :: rest => if c.isDigit then digitPartAux (digitVal c) rest else none

/-- Python `int(s)` on an ASCII string: optional surrounding whitespace,
    optional sign, then a digit part. -/
def pyInt? (l : List Char) : Option Int :=
  match pyStrip l with
  | [] => none
  | c :: rest =>
    if c = '+' then (digitPart rest).map (fun n => (n : Int))
    else if c = '-' then (digitPart rest).map (fun n => -(n : Int))
    else (digitPart (c :: rest)).map (fun n => (n : Int))

/-- Python `s.split('-')`: split at every hyphen, keeping empty segments. -/
def splitDash : List Char → List (List Char)
  | [] => [[]]
  | c :: rest =>
    if c = '-' then [] :: splitDash rest
    else
      match splitDash rest with
      | seg :: segs => (c :: seg) :: segs
      | [] => [[c]]

/-- Model of `re.search(letter + r'(\d+)', s)` followed by `int(group(1))`:
    find the leftmost occurrence of `letter` immediately followed by a digit
    and return the value of the maximal digit run after that occurrence. -/
def searchLetterNum (letter : Char) : List Char → Option Nat
  | [] => none
  | c :: rest =>
    if c = letter then
      match rest with
      | d :: _ =>
        if d.isDigit then some (digitsToNat (rest.takeWhile Char.isDigit))
        else searchLetterNum letter rest
      | [] => none
    else searchLetterNum letter rest

/-- Error message returned by `parse_range_input` on malformed input. -/
def invalidMsg : String := "Invalid selection format."

/-- The `<a>-<b>` branch of `parse_range_input` after both fields went
    through `int`: `start, end = map(int, user_input.split('-'))` followed by
    the range check (lines 177-179).  A failed `int` is a caught exception,
    hence the error result. -/
def rangeFromInts (total : Nat) : Option Int → Option Int → List Nat × Option String
  | some s, some e =>
    if 1 ≤ s ∧ s ≤ e ∧ e ≤ (total : Int) then
      (List.range' (s.toNat - 1) (e.toNat - (s.toNat - 1)), none)
    else ([], some invalidMsg)
  | _, _ => ([], some invalidMsg)

/-- The `<a>-<b>` branch of `parse_range_input` on the results of
    `user_input.split('-')`: any number of segments other than two is an
    unpacking `ValueError`, caught as the error result. -/
def rangeBranch (total : Nat) : List (List Char) → List Nat × Option String
  | [a, b] => rangeFromInts total (pyInt? a) (pyInt? b)
  | _ => ([], some invalidMsg)

/-- Embedding of `parse_range_input` (src/main.py lines 159-186): parses a
    selection expression into a list of 0-based indices, or an error. -/
def parse_range_input (input : List Char) (total : Nat) : List Nat × Option String :=
  let u := normalize input
  if u = ['a', 'l', 'l'] then
    (List.range total, none)
  else if u.head? = some 'f' then
    match searchLetterNum 'f' u with
    | some n => (List.range (min n total), none)
    | none => ([], some invalidMsg)
  else if u.head? = some 'l' then
    match searchLetterNum 'l' u with
    | some n => (List.range' (total - n) (total - (total - n)), none)
    | none => ([], some invalidMsg)
  else if u.contains '-' then
    rangeBranch total (splitDash u)
  else
    match pyInt? u with
    | some idx =>
      if 1 ≤ idx ∧ idx ≤ (total : Int) then ([idx.toNat - 1], none)
      else ([], some invalidMsg)
    | none => ([], some invalidMsg)

/-- The ten decimal digit characters. -/
def digitChars : List Char := ['0', '1', '2', '3', '4', '5', '6', '7', '8', '9']

/-- Selection forms recognized by the specification document: `all`,
    `f<N>`, `l<N>`, `<a>-<b>`, `<n>`, with `<N>`, `<a>`, `<b>`, `<n>`
    plain digit strings.  Stated from the spec's words, to compare the
    spec's notion of well-formed input with the code's behaviour. -/
def specRecognizedForm (u : List Char) : Bool :=
  u = ['a', 'l', 'l'] ||
  (match u with
   | 'f' :: d => !d.isEmpty && d.all Char.isDigit
   | _ => false) ||
  (match u with
   | 'l' :: d => !d.isEmpty && d.all Char.isDigit
   | _ => false) ||
  (match splitDash u with
   | [a, b] => !a.isEmpty && a.all Char.isDigit && !b.isEmpty && b.all Char.isDigit
   | _ => false) ||
  (!u.isEmpty && u.all Char.isDigit)

/-- Does the string contain `letter` immediately followed by a decimal
    digit?  (The condition under which `re.search(letter + r'(\d+)')` hits.) -/
def hasLetterDigit (letter : Char) : List Char → Bool
  | [] => false
  | [_] => false
  | c :: d :: rest => (c = letter && d.isDigit) || hasLetterDigit letter (d :: rest)

/-- Normalized inputs on which the code's parser can possibly succeed: the
    spec's forms generalized by the leniency actually present in the code
    (`re.search` tolerates extra characters around `f<N>`/`l<N>`; numeric
    fields go through Python `int`, which tolerates signs, underscores and
    surrounding whitespace). -/
def acceptedShape (u : List Char) : Bool :=
  u = ['a', 'l', 'l'] ||
  (u.head? = some 'f' && hasLetterDigit 'f' u) ||
  (u.head? = some 'l' && hasLetterDigit 'l' u) ||
  (u.contains '-' &&
    (match splitDash u with
     | [a, b] => (pyInt? a).isSome && (pyInt? b).isSome
     | _ => false)) ||
  (pyInt? u).isSome

/-- The nine characters removed by `sanitize_filename`'s first `re.sub`
    (class `[\\/*?:"<>|]`). -/
def isIllegalChar (c : Char) : Bool :=
  c = '\\' || c = '/' || c = '*' || c = '?' || c = ':' ||
  c = '"' || c = '<' || c = '>' || c = '|'

/-- Characters matched by the class `[\s-]`. -/
def isSpaceOrHyphen (c : Char) : Bool := pyIsSpace c || c = '-'

/-- Worker for `collapseRuns`: `inRun` records whether the previous
    character belonged to the `[\s-]` class (in which case the run's single
    underscore has already been emitted). -/
def collapseRunsAux : Bool → List Char → List Char
  | _, [] => []
  | inRun, c :: rest =>
    if isSpaceOrHyphen c then
      (if inRun then [] else ['_']) ++ collapseRunsAux true rest
    else c :: collapseRunsAux false rest

/-- Model of `re.sub(r'[\s-]+', '_', s)`: each maximal run of whitespace
    and/or hyphens becomes a single underscore. -/
def collapseRuns (l : List Char) : List Char := collapseRunsAux false l

/-- Python `s.strip('_')`. -/
def stripUnderscores (l : List Char) : List Char :=
  ((l.dropWhile (· = '_')).reverse.dropWhile (· = '_')).reverse

/-- Embedding of `sanitize_filename` (src/main.py lines 9-18). -/
def sanitize_filename (filename : List Char) : List Char :=
  let s1 := filename.filter (fun c => !isIllegalChar c)
  let s2 := collapseRuns s1
  let s3 := stripUnderscores s2
  s3.take 200

/-- A feed enclosure: `href` and `type` attributes, each possibly absent. -/
structure Enclosure where
  href : Option (List Char)
  mimeType : Option (List Char)
deriving DecidableEq

/-- `enclosure.get('type', '')`-style access: absent mime type reads as "". -/
def mimeOf (e : Enclosure) : List Char := e.mimeType.getD []

/-- Does `hay` start with `needle`? -/
def startsWithL : List Char → List Char → Bool
  | [], _ => true
  | _ :: _, [] => false
  | n :: ns, h :: hs => n = h && startsWithL ns hs

/-- Python substring test `needle in hay`. -/
def containsSub (needle hay : List Char) : Bool :=
  match hay with
  | [] => needle.isEmpty
  | _ :: rest => startsWithL needle hay || containsSub needle rest

/-- `'opus' in mime or 'ogg' in mime` (line 74). -/
def isOpusMime (m : List Char) : Bool :=
  containsSub ['o', 'p', 'u', 's'] m || containsSub ['o', 'g', 'g'] m

/-- `'mpeg' in mime or 'mp3' in mime` (line 80). -/
def isMp3Mime (m : List Char) : Bool :=
  containsSub ['m', 'p', 'e', 'g'] m || containsSub ['m', 'p', '3'] m

/-- An episode record as the acquisition code sees it: a title and the
    optional `enclosures` attribute. -/
structure Entry where
  title : List Char
  enclosures : Option (List Enclosure)
deriving DecidableEq

/-- Embedding of `get_audio_enclosure` (src/main.py lines 64-83): first
    enclosure whose mime type names opus/ogg wins; otherwise first
    mpeg/mp3 enclosure; otherwise no URL. -/
def get_audio_enclosure (entry : Entry) : Option (List Char) × Bool :=
  match entry.enclosures with
  | none => (none, false)
  | some encs =>
    match encs.find? (fun e => isOpusMime (mimeOf e)) with
    | some e => (e.href, true)
    | none =>
      match encs.find? (fun e => isMp3Mime (mimeOf e)) with
      | some e => (e.href, false)
      | none => (none, false)

/-- Abstract file contents. -/
abbrev Bytes := List Nat

/-- The filesystem visible to `download_episode`: a partial map from file
    name (in the working directory) to contents. -/
abbrev FS := List Char → Option Bytes

/-- Point update of the filesystem (`none` deletes the file). -/
def fsSet (fs : FS) (p : List Char) (v : Option Bytes) : FS :=
  fun q => if q = p then v else fs q

/-- Behaviour of the single `requests.get` stream for one episode: the
    request fails before any byte is written (non-2xx, `raise_for_status`),
    or the connection drops mid-stream after a prefix of the body was
    written, or the whole body is received. -/
inductive StreamRes where
  | httpFail
  | midFail (written : Bytes)
  | ok (content : Bytes)

/-- Environment of one `download_episode` call: what the network does and
    what `convert_to_opus` (the ffmpeg invocation) does.  `transcoded = some out`
    means ffmpeg exits 0 having written `out` to the output path; `none`
    means it fails (tool missing or nonzero exit), creating no output. -/
structure Env where
  stream : StreamRes
  transcoded : Option Bytes

/-- Per-episode acquisition outcome (the spec's AcquisitionOutcome). -/
inductive Outcome where
  | success (path : List Char)
  | skipped (reason : String)
  | failed (reason : String)
deriving DecidableEq

/-- Result of one `download_episode` call: the filesystem afterwards, the
    outcome, and whether a network request was issued. -/
structure DlResult where
  fs : FS
  outcome : Outcome
  networkCalled : Bool

/-- `f"{base_name}.tmp.mp3"`. -/
def tmpName (base : List Char) : List Char := base ++ ['.', 't', 'm', 'p', '.', 'm', 'p', '3']

/-- `f"{base_name}.opus"`. -/
def opusName (base : List Char) : List Char := base ++ ['.', 'o', 'p', 'u', 's']

/-- Embedding of `download_episode` (src/main.py lines 111-157) as a state
    transformer on the filesystem.  `env` fixes the behaviour of the network
    request and of the transcoder for this call. -/
def download_episode (env : Env) (entry : Entry) (fs : FS) : DlResult :=
  let r := get_audio_enclosure entry
  let audioUrl := r.1
  let isNativeOpus := r.2
  if audioUrl = none ∨ audioUrl = some [] then
    ⟨fs, .skipped ("No supported audio URL found."), false⟩
  else
    let base := sanitize_filename entry.title
    let finalFilename := opusName base
    if (fs finalFilename).isSome then
      ⟨fs, .skipped ("File already exists, skipping"), false⟩
    else
      let downloadFilename := if isNativeOpus then finalFilename else tmpName base
      match env.stream with
      | .httpFail =>
        let fs1 := if !isNativeOpus && (fs downloadFilename).isSome
                   then fsSet fs downloadFilename none else fs
        ⟨fs1, .failed ("transport error"), true⟩
      | .midFail written =>
        let fs1 := fsSet fs downloadFilename (some written)
        let fs2 := if !isNativeOpus && (fs1 downloadFilename).isSome
                   then fsSet fs1 downloadFilename none else fs1
        ⟨fs2, .failed ("transport error"), true⟩
      | .ok content =>
        let fs1 := fsSet fs downloadFilename (some content)
        if isNativeOpus then
          ⟨fs1, .success finalFilename, true⟩
        else
          match env.transcoded with
          | some out =>
            let fs2 := fsSet fs1 finalFilename (some out)
            let fs3 := if (fs2 downloadFilename).isSome
                       then fsSet fs2 downloadFilename none else fs2
            ⟨fs3, .success finalFilename, true⟩
          | none =>
            let fs2 := if (fs1 downloadFilename).isSome
                       then fsSet fs1 downloadFilename none else fs1
            ⟨fs2, .failed ("transcode failed"), true⟩

/-! Helper lemmas about the Python-builtin models. -/

theorem dropWhileEqSelf {p : Char → Bool} {l : List Char}
    (h : ∀ c ∈ l, p c = false) : l.dropWhile p = l := by
  cases l with
  | nil => rfl
  | cons a l => simp [List.dropWhile_cons, h a (by simp)]

theorem takeWhileEqSelf {p : Char → Bool} {l : List Char}
    (h : ∀ c ∈ l, p c = true) : l.takeWhile p = l := by
  induction l with
  | nil => rfl
  | cons a l ih =>
    simp only [List.takeWhile_cons, h a (by simp), if_true]
    rw [ih (fun c hc => h c (by simp [hc]))]

theorem pyStripEqSelf {l : List Char} (h : ∀ c ∈ l, pyIsSpace c = false) :
    pyStrip l = l := by
  unfold pyStrip
  rw [dropWhileEqSelf h]
  rw [dropWhileEqSelf (fun c hc => h c (List.mem_reverse.mp hc))]
  exact List.reverse_reverse l

theorem normalizeEqSelf {l : List Char}
    (h : ∀ c ∈ l, pyIsSpace c = false ∧ Char.toLower c = c) :
    normalize l = l := by
  unfold normalize
  rw [pyStripEqSelf (fun c hc => (h c hc).1)]
  have hm : l.map Char.toLower = l := by
    conv_rhs => rw [← List.map_id l]
    exact List.map_congr_left (fun c hc => (h c hc).2)
  rw [hm]
  rw [List.filter_eq_self.mpr]
  intro c hc
  have hs := (h c hc).1
  simp only [decide_eq_true_eq]
  intro he
  subst he
  simp [pyIsSpace] at hs

theorem digitCharFacts : ∀ c ∈ digitChars,
    c.isDigit = true ∧ pyIsSpace c = false ∧ Char.toLower c = c ∧
    c ≠ ' ' ∧ c ≠ '_' ∧ c ≠ '+' ∧ c ≠ '-' ∧ c ≠ 'f' ∧ c ≠ 'l' ∧ c ≠ 'a' := by
  decide

theorem searchLetterNumSelf {letter : Char} {d : List Char} (hne : d ≠ [])
    (hd : ∀ c ∈ d, c.isDigit = true) :
    searchLetterNum letter (letter :: d) = some (digitsToNat d) := by
  cases d with
  | nil => exact absurd rfl hne
  | cons d0 rest =>
    unfold searchLetterNum
    rw [if_pos rfl]
    simp only [hd d0 (by simp), if_true]
    rw [takeWhileEqSelf hd]

theorem digitPartAuxDigits (acc : Nat) (l : List Char)
    (h : ∀ c ∈ l, c.isDigit = true ∧ c ≠ '_') :
    digitPartAux acc l = some (l.foldl (fun a c => a * 10 + digitVal c) acc) := by
  induction l generalizing acc with
  | nil => rfl
  | cons c rest ih =>
    unfold digitPartAux
    rw [if_neg (h c (by simp)).2]
    rw [if_pos (h c (by simp)).1]
    rw [ih _ (fun x hx => h x (by simp [hx]))]
    simp

theorem digitPartDigits {l : List Char} (hne : l ≠ [])
    (h : ∀ c ∈ l, c.isDigit = true ∧ c ≠ '_') :
    digitPart l = some (digitsToNat l) := by
  cases l with
  | nil => exact absurd rfl hne
  | cons c rest =>
    simp only [digitPart]
    rw [if_pos (h c (by simp)).1]
    rw [digitPartAuxDigits _ _ (fun x hx => h x (by simp [hx]))]
    simp [digitsToNat]

theorem pyIntDigits {l : List Char} (hne : l ≠ [])
    (h : ∀ c ∈ l, c ∈ digitChars) :
    pyInt? l = some ((digitsToNat l : Nat) : Int) := by
  have hf := fun c hc => digitCharFacts c (h c hc)
  unfold pyInt?
  rw [pyStripEqSelf (fun c hc => (hf c hc).2.1)]
  cases l with
  | nil => exact absurd rfl hne
  | cons c rest =>
    simp only []
    rw [if_neg (hf c (by simp)).2.2.2.2.2.1]
    rw [if_neg (hf c (by simp)).2.2.2.2.2.2.1]
    rw [digitPartDigits (by simp) (fun x hx => ⟨(hf x hx).1, (hf x hx).2.2.2.2.1⟩)]
    rfl

theorem splitDashNoDash {l : List Char} (h : ∀ c ∈ l, c ≠ '-') :
    splitDash l = [l] := by
  induction l with
  | nil => rfl
  | cons c rest ih =>
    unfold splitDash
    rw [if_neg (h c (by simp))]
    rw [ih (fun x hx => h x (by simp [hx]))]

theorem splitDashAppend {da db : List Char} (hda : ∀ c ∈ da, c ≠ '-')
    (hdb : ∀ c ∈ db, c ≠ '-') :
    splitDash (da ++ '-' :: db) = [da, db] := by
  induction da with
  | nil =>
    simp only [List.nil_append]
    unfold splitDash
    rw [if_pos rfl, splitDashNoDash hdb]
  | cons c rest ih =>
    simp only [List.cons_append]
    unfold splitDash
    rw [if_neg (hda c (by simp))]
    rw [ih (fun x hx => hda x (by simp [hx]))]

/-! Claim theorems for the Selection Parser. -/

/-- C6: for every total and every digit string `<N>` denoting N, parsing
    `f<N>` returns the first `min N total` indices `[0 .. min N total - 1]`
    and parsing `l<N>` returns the last `min N total` indices
    `[total - N .. total - 1]`; `N = 0` yields an empty result, not an
    error. -/
theorem c6_first_last_forms (total : Nat) (d : List Char) (hne : d ≠ [])
    (hd : ∀ c ∈ d, c ∈ digitChars) :
    parse_range_input ('f' :: d) total = (List.range (min (digitsToNat d) total), none) ∧
    parse_range_input ('l' :: d) total =
      (List.range' (total - digitsToNat d) (min (digitsToNat d) total), none) := by
  have hfacts := fun c hc => digitCharFacts c (hd c hc)
  have hdig : ∀ c ∈ d, c.isDigit = true := fun c hc => (hfacts c hc).1
  constructor
  · have hnorm : normalize ('f' :: d) = 'f' :: d := by
      apply normalizeEqSelf
      intro c hc
      rcases List.mem_cons.mp hc with h1 | h2
      · subst h1; exact ⟨by decide, by decide⟩
      · exact ⟨(hfacts c h2).2.1, (hfacts c h2).2.2.1⟩
    have hne_all : ¬('f' :: d = ['a', 'l', 'l']) := by
      intro hcontra
      exact absurd ((List.cons.injEq _ _ _ _).mp hcontra).1 (by decide)
    simp only [parse_range_input]
    rw [hnorm, if_neg hne_all, if_pos (show ('f' :: d).head? = some 'f' from rfl),
      searchLetterNumSelf hne hdig]
  · have hnorm : normalize ('l' :: d) = 'l' :: d := by
      apply normalizeEqSelf
      intro c hc
      rcases List.mem_cons.mp hc with h1 | h2
      · subst h1; exact ⟨by decide, by decide⟩
      · exact ⟨(hfacts c h2).2.1, (hfacts c h2).2.2.1⟩
    have hne_all : ¬('l' :: d = ['a', 'l', 'l']) := by
      intro hcontra
      exact absurd ((List.cons.injEq _ _ _ _).mp hcontra).1 (by decide)
    simp only [parse_range_input]
    rw [hnorm, if_neg hne_all,
      if_neg (show ¬(('l' :: d).head? = some 'f') from
        fun hcontra => absurd (Option.some.inj hcontra) (by decide)),
      if_pos (show ('l' :: d).head? = some 'l' from rfl),
      searchLetterNumSelf hne hdig]
    show (List.range' (total - digitsToNat d) (total - (total - digitsToNat d)), none) = _
    have hcount : total - (total - digitsToNat d) = min (digitsToNat d) total := by omega
    rw [hcount]

/-- C6 witness: `f3` on a 5-episode feed selects the first three episodes
    and `l3` the last three. -/
theorem c6_first_last_forms_witness :
    parse_range_input ['f', '3'] 5 = (List.range (min (digitsToNat ['3']) 5), none) ∧
    parse_range_input ['l', '3'] 5 =
      (List.range' (5 - digitsToNat ['3']) (min (digitsToNat ['3']) 5), none) :=
  c6_first_last_forms 5 ['3'] (by decide) (by decide)

/-- C7: for every total and digit strings `<a>`, `<b>`, parsing `<a>-<b>`
    returns exactly the 0-based indices `a-1 .. b-1` when
    `1 ≤ a ≤ b ≤ total`, and the error otherwise. -/
theorem c7_range_form (total : Nat) (da db : List Char) (hnea : da ≠ []) (hneb : db ≠ [])
    (hda : ∀ c ∈ da, c ∈ digitChars) (hdb : ∀ c ∈ db, c ∈ digitChars) :
    parse_range_input (da ++ '-' :: db) total =
      if 1 ≤ digitsToNat da ∧ digitsToNat da ≤ digitsToNat db ∧ digitsToNat db ≤ total then
        (List.range' (digitsToNat da - 1) (digitsToNat db - digitsToNat da + 1), none)
      else ([], some invalidMsg) := by
  have hfa := fun c hc => digitCharFacts c (hda c hc)
  have hfb := fun c hc => digitCharFacts c (hdb c hc)
  have hnorm : normalize (da ++ '-' :: db) = da ++ '-' :: db := by
    apply normalizeEqSelf
    intro c hc
    rcases List.mem_append.mp hc with h1 | h2
    · exact ⟨(hfa c h1).2.1, (hfa c h1).2.2.1⟩
    · rcases List.mem_cons.mp h2 with h3 | h4
      · subst h3; exact ⟨by decide, by decide⟩
      · exact ⟨(hfb c h4).2.1, (hfb c h4).2.2.1⟩
  cases da with
  | nil => exact absurd rfl hnea
  | cons c0 da' =>
    have hc0 := hfa c0 (by simp)
    have hmem : '-' ∈ (c0 :: da') ++ '-' :: db := by simp
    simp only [parse_range_input]
    rw [hnorm]
    rw [if_neg (by
      intro hcontra
      simp only [List.cons_append] at hcontra
      exact absurd ((List.cons.injEq _ _ _ _).mp hcontra).1 hc0.2.2.2.2.2.2.2.2.2)]
    rw [if_neg (by
      simp only [List.cons_append, List.head?_cons, Option.some.injEq]
      exact hc0.2.2.2.2.2.2.2.1)]
    rw [if_neg (by
      simp only [List.cons_append, List.head?_cons, Option.some.injEq]
      exact hc0.2.2.2.2.2.2.2.2.1)]
    rw [if_pos (List.elem_eq_true_of_mem hmem)]
    rw [splitDashAppend (fun x hx => (hfa x hx).2.2.2.2.2.2.1)
        (fun x hx => (hfb x hx).2.2.2.2.2.2.1)]
    simp only [rangeBranch]
    rw [pyIntDigits hnea hda, pyIntDigits hneb hdb]
    simp only [rangeFromInts]
    by_cases hg : 1 ≤ digitsToNat (c0 :: da') ∧
        digitsToNat (c0 :: da') ≤ digitsToNat db ∧ digitsToNat db ≤ total
    · rw [if_pos (by
        refine ⟨?_, ?_, ?_⟩ <;> [exact_mod_cast hg.1; exact_mod_cast hg.2.1; exact_mod_cast hg.2.2]),
        if_pos hg]
      have h1 : ((digitsToNat (c0 :: da') : Int)).toNat = digitsToNat (c0 :: da') := Int.toNat_natCast _
      have h2 : ((digitsToNat db : Int)).toNat = digitsToNat db := Int.toNat_natCast _
      rw [h1, h2]
      have hcount : digitsToNat db - (digitsToNat (c0 :: da') - 1) =
          digitsToNat db - digitsToNat (c0 :: da') + 1 := by omega
      rw [hcount]
    · rw [if_neg (by
        intro hcontra
        apply hg
        refine ⟨?_, ?_, ?_⟩ <;> [exact_mod_cast hcontra.1; exact_mod_cast hcontra.2.1;
          exact_mod_cast hcontra.2.2]),
        if_neg hg]

/-- C7 witness: `2-4` on a 5-episode feed selects indices 1..3 (and the
    guard `1 ≤ 2 ≤ 4 ≤ 5` holds). -/
theorem c7_range_form_witness :
    parse_range_input ['2', '-', '4'] 5 =
      if 1 ≤ digitsToNat ['2'] ∧ digitsToNat ['2'] ≤ digitsToNat ['4'] ∧ digitsToNat ['4'] ≤ 5 then
        (List.range' (digitsToNat ['2'] - 1) (digitsToNat ['4'] - digitsToNat ['2'] + 1), none)
      else ([], some invalidMsg) :=
  c7_range_form 5 ['2'] ['4'] (by decide) (by decide) (by decide) (by decide)

theorem searchLetterNumNone {letter : Char} : ∀ {u : List Char},
    hasLetterDigit letter u = false → searchLetterNum letter u = none := by
  intro u
  induction u with
  | nil => intro _; rfl
  | cons c rest ih =>
    intro h
    cases rest with
    | nil =>
      simp only [searchLetterNum]
      by_cases hc : c = letter
      · rw [if_pos hc]
      · rw [if_neg hc]

    | cons d rest2 =>
      simp only [hasLetterDigit, Bool.or_eq_false_iff, Bool.and_eq_false_iff] at h
      simp only [searchLetterNum]
      by_cases hc : c = letter
      · rw [if_pos hc]
        have hd : d.isDigit = false := by
          rcases h.1 with h1 | h1
          · simp [hc] at h1
          · exact h1
        rw [if_neg (by simp [hd])]
        exact ih h.2
      · rw [if_neg hc]
        exact ih h.2

/-- C2 counterexample: after normalization, `f3x` is not one of the
    spec-recognized selection forms, yet `parse_range_input` returns the
    best-effort index list `[0, 1, 2]` with no error (because
    `re.search(r'f(\d+)')` tolerates trailing garbage). -/
theorem c2_counterexample :
    specRecognizedForm (normalize ['f', '3', 'x']) = false ∧
    parse_range_input ['f', '3', 'x'] 5 = ([0, 1, 2], none) := by decide

/-- C2 (amended): for every total and every input whose normalization
    matches none of the shapes the code accepts — the spec's recognized
    forms generalized by the code's leniency (`f`/`l` forms matched by
    substring search, numeric fields read by Python `int` with sign,
    underscore and whitespace tolerance) — `parse_range_input` returns the
    error "Invalid selection format." and an empty index list, never a
    partial one. -/
theorem c2_malformed_rejected (input : List Char) (total : Nat)
    (h : acceptedShape (normalize input) = false) :
    parse_range_input input total = ([], some invalidMsg) := by
  simp only [parse_range_input]
  revert h
  generalize normalize input = u
  intro h
  simp only [acceptedShape, Bool.or_eq_false_iff, Bool.and_eq_false_iff,
    decide_eq_false_iff_not] at h
  obtain ⟨⟨⟨⟨h1, h2⟩, h3⟩, h4⟩, h5⟩ := h
  rw [if_neg h1]
  by_cases hf : u.head? = some 'f'
  · rw [if_pos hf]
    have hLD : hasLetterDigit 'f' u = false := by
      rcases h2 with h2a | h2a
      · exact absurd hf h2a
      · exact h2a
    rw [searchLetterNumNone hLD]
  · rw [if_neg hf]
    by_cases hl : u.head? = some 'l'
    · rw [if_pos hl]
      have hLD : hasLetterDigit 'l' u = false := by
        rcases h3 with h3a | h3a
        · exact absurd hl h3a
        · exact h3a
      rw [searchLetterNumNone hLD]
    · rw [if_neg hl]
      by_cases hdash : u.contains '-' = true
      · rw [if_pos hdash]
        have h4' : (match splitDash u with
            | [a, b] => (pyInt? a).isSome && (pyInt? b).isSome
            | _ => false) = false := by
          rcases h4 with h4a | h4a
          · rw [h4a] at hdash; exact absurd hdash (by simp)
          · exact h4a
        cases hsp : splitDash u with
        | nil => rfl
        | cons a t =>
          cases t with
          | nil => rfl
          | cons b t2 =>
            cases t2 with
            | nil =>
              rw [hsp] at h4'
              simp only [] at h4'
              simp only [rangeBranch]
              cases hA : pyInt? a with
              | none => rfl
              | some s =>
                cases hB : pyInt? b with
                | none => rfl
                | some e =>
                  rw [hA, hB] at h4'
                  simp at h4'
            | cons x t3 => rfl
      · rw [if_neg hdash]
        cases hpy : pyInt? u with
        | none => rfl
        | some idx =>
          rw [hpy] at h5
          simp at h5

/-- C2 witness: `xyz` matches no accepted shape and is rejected with the
    error and no indices. -/
theorem c2_malformed_rejected_witness :
    parse_range_input ['x', 'y', 'z'] 7 = ([], some invalidMsg) :=
  c2_malformed_rejected ['x', 'y', 'z'] 7 (by decide)

theorem rangeBranchBounds (total : Nat) (parts : List (List Char)) :
    (∀ i ∈ (rangeBranch total parts).1, i < total) ∧
    List.Pairwise (· ≤ ·) (rangeBranch total parts).1 := by
  match parts with
  | [] => exact ⟨by simp [rangeBranch], by simp [rangeBranch]⟩
  | [a] => exact ⟨by simp [rangeBranch], by simp [rangeBranch]⟩
  | a :: b :: x :: t => exact ⟨by simp [rangeBranch], by simp [rangeBranch]⟩
  | [a, b] =>
    simp only [rangeBranch]
    cases pyInt? a with
    | none => exact ⟨by simp [rangeFromInts], by simp [rangeFromInts]⟩
    | some s =>
      cases pyInt? b with
      | none => exact ⟨by simp [rangeFromInts], by simp [rangeFromInts]⟩
      | some e =>
        simp only [rangeFromInts]
        split
        · next hg =>
          refine ⟨fun i hi => ?_, List.pairwise_le_range' _ _⟩
          rw [List.mem_range'_1] at hi
          omega
        · exact ⟨by simp, by simp⟩

theorem parseBoundsSorted (input : List Char) (total : Nat) :
    (∀ i ∈ (parse_range_input input total).1, i < total) ∧
    List.Pairwise (· ≤ ·) (parse_range_input input total).1 := by
  simp only [parse_range_input]
  generalize normalize input = u
  by_cases h1 : u = ['a', 'l', 'l']
  · rw [if_pos h1]
    exact ⟨fun i hi => List.mem_range.mp hi, List.pairwise_le_range total⟩
  · rw [if_neg h1]
    by_cases h2 : u.head? = some 'f'
    · rw [if_pos h2]
      cases searchLetterNum 'f' u with
      | none => exact ⟨by simp, by simp⟩
      | some n =>
        refine ⟨fun i hi => ?_, List.pairwise_le_range _⟩
        have := List.mem_range.mp hi
        omega
    · rw [if_neg h2]
      by_cases h3 : u.head? = some 'l'
      · rw [if_pos h3]
        cases searchLetterNum 'l' u with
        | none => exact ⟨by simp, by simp⟩
        | some n =>
          refine ⟨fun i hi => ?_, List.pairwise_le_range' _ _⟩
          rw [List.mem_range'_1] at hi
          omega
      · rw [if_neg h3]
        by_cases h4 : u.contains '-' = true
        · rw [if_pos h4]
          exact rangeBranchBounds total (splitDash u)
        · rw [if_neg h4]
          cases pyInt? u with
          | none => exact ⟨by simp, by simp⟩
          | some idx =>
            simp only []
            split
            · next hg =>
              refine ⟨fun i hi => ?_, by simp⟩
              rw [List.mem_singleton] at hi
              omega
            · exact ⟨by simp, by simp⟩

/-- C3: for every input string and total, whenever the parser succeeds,
    every returned index lies within [0, total) and the returned sequence
    is in non-decreasing order (matching feed order). -/
theorem c3_success_indices_in_range (input : List Char) (total : Nat)
    (h : (parse_range_input input total).2 = none) :
    (∀ i ∈ (parse_range_input input total).1, i < total) ∧
    List.Pairwise (· ≤ ·) (parse_range_input input total).1 :=
  parseBoundsSorted input total

/-- C3 witness: `2-4` over 5 episodes parses without error, and its indices
    are in range and non-decreasing. -/
theorem c3_success_indices_in_range_witness :
    (∀ i ∈ (parse_range_input ['2', '-', '4'] 5).1, i < 5) ∧
    List.Pairwise (· ≤ ·) (parse_range_input ['2', '-', '4'] 5).1 :=
  c3_success_indices_in_range ['2', '-', '4'] 5 (by decide)

/-! Claim theorems for the Source Resolver. -/

/-- C4: the resolver applies the ordered first-match-wins policy: if any
    enclosure's mime type names the target codec family (opus/ogg), the
    resolver returns such an enclosure's URL with isTargetCodec = true,
    regardless of where fallback-typed enclosures sit in the list;
    otherwise, if any enclosure's mime type names the fallback codec
    (mpeg/mp3), it returns such an enclosure's URL with
    isTargetCodec = false; otherwise (including an episode with no
    enclosures attribute at all) it returns no URL. -/
theorem c4_resolver_policy (entry : Entry) :
    (entry.enclosures = none → get_audio_enclosure entry = (none, false)) ∧
    (∀ encs, entry.enclosures = some encs →
      ((∃ e ∈ encs, isOpusMime (mimeOf e)) →
        ∃ e ∈ encs, isOpusMime (mimeOf e) ∧ get_audio_enclosure entry = (e.href, true)) ∧
      ((∀ e ∈ encs, ¬isOpusMime (mimeOf e)) →
        ((∃ e ∈ encs, isMp3Mime (mimeOf e)) →
          ∃ e ∈ encs, isMp3Mime (mimeOf e) ∧ get_audio_enclosure entry = (e.href, false)) ∧
        ((∀ e ∈ encs, ¬isMp3Mime (mimeOf e)) →
          get_audio_enclosure entry = (none, false)))) := by
  constructor
  · intro h
    simp [get_audio_enclosure, h]
  · intro encs h
    constructor
    · intro hex
      obtain ⟨e, hmem, hP⟩ := hex
      have hsome : (encs.find? (fun e => isOpusMime (mimeOf e))).isSome := by
        rw [List.find?_isSome]
        exact ⟨e, hmem, hP⟩
      obtain ⟨e0, he0⟩ := Option.isSome_iff_exists.mp hsome
      refine ⟨e0, List.mem_of_find?_eq_some he0, ?_, ?_⟩
      · have hp := List.find?_some he0
        exact hp
      · simp [get_audio_enclosure, h, he0]
    · intro hnone
      have hfind : encs.find? (fun e => isOpusMime (mimeOf e)) = none :=
        List.find?_eq_none.mpr (fun x hx => by simpa using hnone x hx)
      constructor
      · intro hex
        obtain ⟨e, hmem, hP⟩ := hex
        have hsome : (encs.find? (fun e => isMp3Mime (mimeOf e))).isSome := by
          rw [List.find?_isSome]
          exact ⟨e, hmem, hP⟩
        obtain ⟨e0, he0⟩ := Option.isSome_iff_exists.mp hsome
        refine ⟨e0, List.mem_of_find?_eq_some he0, ?_, ?_⟩
        · have hp := List.find?_some he0
          exact hp
        · simp [get_audio_enclosure, h, hfind, he0]
      · intro hnone2
        have hfind2 : encs.find? (fun e => isMp3Mime (mimeOf e)) = none :=
          List.find?_eq_none.mpr (fun x hx => by simpa using hnone2 x hx)
        simp [get_audio_enclosure, h, hfind, hfind2]

/-- C4 witness: an episode listing an mpeg enclosure before an
    "audio/ogg; codecs=opus" enclosure still resolves to an opus-typed
    enclosure's URL with isTargetCodec = true. -/
theorem c4_resolver_policy_witness :
    ∃ e ∈ [Enclosure.mk (some ("u1".toList)) (some ("audio/mpeg".toList)),
           Enclosure.mk (some ("u2".toList)) (some ("audio/ogg; codecs=opus".toList))],
      isOpusMime (mimeOf e) ∧
      get_audio_enclosure
        (Entry.mk ("t".toList)
          (some [Enclosure.mk (some ("u1".toList)) (some ("audio/mpeg".toList)),
                 Enclosure.mk (some ("u2".toList)) (some ("audio/ogg; codecs=opus".toList))])) =
        (e.href, true) :=
  ((c4_resolver_policy _).2 _ rfl).1
    ⟨Enclosure.mk (some ("u2".toList)) (some ("audio/ogg; codecs=opus".toList)),
      by decide, by decide⟩

/-! Claim theorems for the sanitizer. -/

theorem headDropWhile {p : Char → Bool} : ∀ {l : List Char} {c : Char},
    (l.dropWhile p).head? = some c → p c = false := by
  intro l
  induction l with
  | nil => intro c h; simp [List.dropWhile] at h
  | cons a rest ih =>
    intro c h
    by_cases hp : p a
    · rw [List.dropWhile_cons, if_pos hp] at h
      exact ih h
    · rw [List.dropWhile_cons, if_neg hp] at h
      simp only [List.head?_cons, Option.some.injEq] at h
      subst h
      exact Bool.eq_false_iff.mpr hp

theorem getLastDropWhile {p : Char → Bool} : ∀ {l : List Char},
    l.dropWhile p ≠ [] → (l.dropWhile p).getLast? = l.getLast? := by
  intro l
  induction l with
  | nil => intro h; simp [List.dropWhile] at h
  | cons a rest ih =>
    intro h
    by_cases hp : p a
    · rw [List.dropWhile_cons, if_pos hp] at h ⊢
      rw [ih h]
      have hrest : rest ≠ [] := by
        intro hcontra
        subst hcontra
        simp [List.dropWhile] at h
      cases rest with
      | nil => exact absurd rfl hrest
      | cons x xs => rw [List.getLast?_cons_cons]
    · rw [List.dropWhile_cons, if_neg hp]

theorem memDropWhile {p : Char → Bool} : ∀ {l : List Char} {c : Char},
    c ∈ l.dropWhile p → c ∈ l := by
  intro l
  induction l with
  | nil => intro c h; simp [List.dropWhile] at h
  | cons a rest ih =>
    intro c h
    by_cases hp : p a
    · rw [List.dropWhile_cons, if_pos hp] at h
      exact List.mem_cons_of_mem a (ih h)
    · rw [List.dropWhile_cons, if_neg hp] at h
      exact h

theorem memStripUnderscores {l : List Char} {c : Char}
    (h : c ∈ stripUnderscores l) : c ∈ l := by
  unfold stripUnderscores at h
  rw [List.mem_reverse] at h
  have h2 := memDropWhile h
  rw [List.mem_reverse] at h2
  exact memDropWhile h2

theorem headStripUnderscores {l : List Char} {c : Char}
    (h : (stripUnderscores l).head? = some c) : c ≠ '_' := by
  unfold stripUnderscores at h
  rw [List.head?_reverse] at h
  have hne : (l.dropWhile (· = '_')).reverse.dropWhile (· = '_') ≠ [] := by
    intro hcontra
    rw [hcontra] at h
    simp at h
  rw [getLastDropWhile hne, List.getLast?_reverse] at h
  have := headDropWhile h
  simpa using this

theorem getLastStripUnderscores {l : List Char} {c : Char}
    (h : (stripUnderscores l).getLast? = some c) : c ≠ '_' := by
  unfold stripUnderscores at h
  rw [List.getLast?_reverse] at h
  have := headDropWhile h
  simpa using this

theorem memCollapseRunsAux : ∀ (b : Bool) (l : List Char) (c : Char),
    c ∈ collapseRunsAux b l → c = '_' ∨ (c ∈ l ∧ isSpaceOrHyphen c = false) := by
  intro b l
  induction l generalizing b with
  | nil => intro c h; simp [collapseRunsAux] at h
  | cons a rest ih =>
    intro c h
    simp only [collapseRunsAux] at h
    by_cases ha : isSpaceOrHyphen a
    · rw [if_pos ha] at h
      rcases List.mem_append.mp h with h1 | h2
      · left
        cases b with
        | true => simp at h1
        | false => simpa using h1
      · rcases ih true c h2 with h3 | h3
        · exact Or.inl h3
        · exact Or.inr ⟨List.mem_cons_of_mem a h3.1, h3.2⟩
    · rw [if_neg ha] at h
      rcases List.mem_cons.mp h with h1 | h2
      · subst h1
        exact Or.inr ⟨List.mem_cons_self _ _, Bool.eq_false_iff.mpr ha⟩
      · rcases ih false c h2 with h3 | h3
        · exact Or.inl h3
        · exact Or.inr ⟨List.mem_cons_of_mem a h3.1, h3.2⟩

/-- C9 counterexample: on a title of 199 `a`s followed by `-b`, the
    sanitizer's output ends in the separator `_`: trimming happens before
    truncation, so truncation can reintroduce a trailing separator,
    contradicting the claim that the returned string always has the
    separator trimmed from both ends. -/
theorem c9_counterexample :
    (sanitize_filename (List.replicate 199 'a' ++ ['-', 'b'])).getLast? = some '_' := by
  decide

/-- C9 (amended): for every title, the sanitizer's output contains no
    filesystem-illegal character and no whitespace or hyphen (each maximal
    whitespace/hyphen run was collapsed into the single separator `_`), is
    at most 200 characters long, never begins with the separator, and —
    unless the 200-character truncation cut the string short — does not end
    with the separator either. -/
theorem c9_sanitizer_contract (f : List Char) :
    (∀ c ∈ sanitize_filename f, isIllegalChar c = false ∧ isSpaceOrHyphen c = false) ∧
    (sanitize_filename f).length ≤ 200 ∧
    (∀ c, (sanitize_filename f).head? = some c → c ≠ '_') ∧
    ((sanitize_filename f).length < 200 →
      ∀ c, (sanitize_filename f).getLast? = some c → c ≠ '_') := by
  refine ⟨?_, ?_, ?_, ?_⟩
  · intro c hc
    have hstrip : c ∈ stripUnderscores (collapseRuns (f.filter (fun x => !isIllegalChar x))) :=
      (List.take_sublist _ _).subset hc
    have hcoll := memStripUnderscores hstrip
    rcases memCollapseRunsAux false _ c hcoll with h1 | h2
    · subst h1; exact ⟨by decide, by decide⟩
    · have hf := List.mem_filter.mp h2.1
      refine ⟨?_, h2.2⟩
      have := hf.2
      simpa using this
  · exact List.length_take_le _ _
  · intro c hc
    unfold sanitize_filename at hc
    rw [List.head?_take] at hc
    split at hc
    · exact absurd hc (by simp)
    · exact headStripUnderscores hc
  · intro hlen c hc
    unfold sanitize_filename at hlen hc
    have hlen2 : (stripUnderscores (collapseRuns (f.filter (fun x => !isIllegalChar x)))).length < 200 := by
      rw [List.length_take] at hlen
      omega
    rw [List.take_of_length_le (Nat.le_of_lt hlen2)] at hc
    exact getLastStripUnderscores hc

/-- C9 witness: the contract evaluated on the concrete title `My: Ep - 1?`. -/
theorem c9_sanitizer_contract_witness :
    (∀ c ∈ sanitize_filename ("My: Ep - 1?".toList),
      isIllegalChar c = false ∧ isSpaceOrHyphen c = false) ∧
    (sanitize_filename ("My: Ep - 1?".toList)).length ≤ 200 ∧
    (∀ c, (sanitize_filename ("My: Ep - 1?".toList)).head? = some c → c ≠ '_') ∧
    ((sanitize_filename ("My: Ep - 1?".toList)).length < 200 →
      ∀ c, (sanitize_filename ("My: Ep - 1?".toList)).getLast? = some c → c ≠ '_') :=
  c9_sanitizer_contract ("My: Ep - 1?".toList)

/-! Claim theorems for the Acquisition Engine. -/

theorem fsSet_self (fs : FS) (p : List Char) (v : Option Bytes) : fsSet fs p v p = v := by
  simp [fsSet]

theorem fsSet_other (fs : FS) {p q : List Char} (v : Option Bytes) (h : q ≠ p) :
    fsSet fs p v q = fs q := by
  simp [fsSet, h]

theorem tmpNeOpus (base : List Char) : tmpName base ≠ opusName base := by
  intro hcontra
  unfold tmpName opusName at hcontra
  have := List.append_inj_right hcontra rfl
  exact absurd this (by decide)

theorem opusNeTmp (base : List Char) : opusName base ≠ tmpName base :=
  fun hcontra => tmpNeOpus base hcontra.symm

/-- C5: for an episode that resolves to a usable audio URL, if the final
    target path already exists on disk, acquisition yields
    Skipped("already downloaded"), makes no network call, and leaves the
    filesystem unchanged, so re-running over the same selection is
    idempotent at the file level. -/
theorem c5_skip_existing (env : Env) (entry : Entry) (fs : FS)
    (url : List Char) (b : Bool)
    (hres : get_audio_enclosure entry = (some url, b)) (hurl : url ≠ [])
    (hex : (fs (opusName (sanitize_filename entry.title))).isSome = true) :
    download_episode env entry fs =
      ⟨fs, .skipped ("File already exists, skipping"), false⟩ := by
  unfold download_episode
  rw [hres]
  simp only []
  rw [if_neg (by
    intro hcontra
    rcases hcontra with h1 | h1
    · exact Option.noConfusion h1
    · exact hurl (Option.some.inj h1))]
  rw [if_pos hex]

/-- C5 witness: a concrete mp3 episode whose final file is present is
    skipped with the filesystem untouched and no network call. -/
theorem c5_skip_existing_witness :
    download_episode (Env.mk (.ok [1]) none)
      (Entry.mk ("t".toList) (some [Enclosure.mk (some ("u".toList)) (some ("audio/mpeg".toList))]))
      (fsSet (fun _ => none) (opusName (sanitize_filename ("t".toList))) (some [9])) =
      ⟨fsSet (fun _ => none) (opusName (sanitize_filename ("t".toList))) (some [9]),
       .skipped ("File already exists, skipping"), false⟩ :=
  c5_skip_existing _ _ _ ("u".toList) false (by decide) (by decide) (by
    rw [fsSet_self]
    rfl)

/-- C8: for a fallback-codec (non-target) episode whose streaming
    succeeded, the transcoder runs on the temporary file; afterwards the
    temporary file is gone in either case, and on transcoder success the
    final file holds the transcoder's output with outcome Success(final),
    while on transcoder failure no final file exists and the outcome is
    Failed. -/
theorem c8_transcode_paths (env : Env) (entry : Entry) (fs : FS)
    (url : List Char) (content : Bytes)
    (hres : get_audio_enclosure entry = (some url, false)) (hurl : url ≠ [])
    (hnof : fs (opusName (sanitize_filename entry.title)) = none)
    (hstream : env.stream = .ok content) :
    ((download_episode env entry fs).fs (tmpName (sanitize_filename entry.title)) = none) ∧
    (∀ out, env.transcoded = some out →
      (download_episode env entry fs).fs (opusName (sanitize_filename entry.title)) = some out ∧
      (download_episode env entry fs).outcome = .success (opusName (sanitize_filename entry.title))) ∧
    (env.transcoded = none →
      (download_episode env entry fs).fs (opusName (sanitize_filename entry.title)) = none ∧
      (download_episode env entry fs).outcome = .failed ("transcode failed")) := by
  unfold download_episode
  rw [hres]
  simp only []
  rw [if_neg (by
    intro hcontra
    rcases hcontra with h1 | h1
    · exact Option.noConfusion h1
    · exact hurl (Option.some.inj h1))]
  rw [if_neg (by simp [hnof])]
  rw [hstream]
  simp only [Bool.false_eq_true, if_false]
  cases htr : env.transcoded with
  | some out =>
    simp only []
    have h1 : (fsSet
        (fsSet fs (tmpName (sanitize_filename entry.title)) (some content))
        (opusName (sanitize_filename entry.title)) (some out))
        (tmpName (sanitize_filename entry.title)) = some content := by
      rw [fsSet_other _ _ (tmpNeOpus _), fsSet_self]
    rw [if_pos (by rw [h1]; rfl)]
    refine ⟨by rw [fsSet_self], ?_, ?_⟩
    · intro out2 hout2
      obtain rfl : out = out2 := Option.some.inj hout2
      exact ⟨by rw [fsSet_other _ _ (opusNeTmp _), fsSet_self], by trivial⟩
    · intro hcontra
      exact Option.noConfusion hcontra
  | none =>
    simp only []
    have h1 : (fsSet fs (tmpName (sanitize_filename entry.title)) (some content))
        (tmpName (sanitize_filename entry.title)) = some content := fsSet_self _ _ _
    rw [if_pos (by rw [h1]; rfl)]
    refine ⟨by rw [fsSet_self], ?_, ?_⟩
    · intro out2 hout2
      exact Option.noConfusion hout2
    · intro _
      refine ⟨?_, by trivial⟩
      rw [fsSet_other _ _ (opusNeTmp _), fsSet_other _ _ (opusNeTmp _)]
      exact hnof

/-- C8 witness: a concrete mp3 episode on an empty filesystem with a
    successful stream, evaluated through both transcoder outcomes. -/
theorem c8_transcode_paths_witness :
    ((download_episode (Env.mk (.ok [5]) (some [6]))
        (Entry.mk ("t".toList) (some [Enclosure.mk (some ("u".toList)) (some ("audio/mpeg".toList))]))
        (fun _ => none)).fs (tmpName (sanitize_filename ("t".toList))) = none) ∧
    (∀ out, (Env.mk (.ok [5]) (some [6])).transcoded = some out →
      (download_episode (Env.mk (.ok [5]) (some [6]))
        (Entry.mk ("t".toList) (some [Enclosure.mk (some ("u".toList)) (some ("audio/mpeg".toList))]))
        (fun _ => none)).fs (opusName (sanitize_filename ("t".toList))) = some out ∧
      (download_episode (Env.mk (.ok [5]) (some [6]))
        (Entry.mk ("t".toList) (some [Enclosure.mk (some ("u".toList)) (some ("audio/mpeg".toList))]))
        (fun _ => none)).outcome = .success (opusName (sanitize_filename ("t".toList)))) ∧
    ((Env.mk (.ok [5]) (some [6])).transcoded = none →
      (download_episode (Env.mk (.ok [5]) (some [6]))
        (Entry.mk ("t".toList) (some [Enclosure.mk (some ("u".toList)) (some ("audio/mpeg".toList))]))
        (fun _ => none)).fs (opusName (sanitize_filename ("t".toList))) = none ∧
      (download_episode (Env.mk (.ok [5]) (some [6]))
        (Entry.mk ("t".toList) (some [Enclosure.mk (some ("u".toList)) (some ("audio/mpeg".toList))]))
        (fun _ => none)).outcome = .failed ("transcode failed")) :=
  c8_transcode_paths _ _ _ ("u".toList) [5] (by decide) (by decide) rfl rfl

/-- C1: executable record of the divergence.  For a native-opus episode, a
    mid-stream transport failure yields a Failed outcome yet leaves the
    partially written final `.opus` file on disk (the cleanup on line 156
    runs only when `not is_native_opus`), and a subsequent run then skips
    the episode as already downloaded instead of repairing it. -/
theorem c1_partial_final_survives :
    (download_episode (Env.mk (.midFail [7]) none)
      (Entry.mk ("t".toList) (some [Enclosure.mk (some ("u".toList)) (some ("audio/opus".toList))]))
      (fun _ => none)).outcome = .failed ("transport error") ∧
    (download_episode (Env.mk (.midFail [7]) none)
      (Entry.mk ("t".toList) (some [Enclosure.mk (some ("u".toList)) (some ("audio/opus".toList))]))
      (fun _ => none)).fs (opusName (sanitize_filename ("t".toList))) = some [7] ∧
    (download_episode (Env.mk (.ok [1, 2]) none)
      (Entry.mk ("t".toList) (some [Enclosure.mk (some ("u".toList)) (some ("audio/opus".toList))]))
      ((download_episode (Env.mk (.midFail [7]) none)
        (Entry.mk ("t".toList) (some [Enclosure.mk (some ("u".toList)) (some ("audio/opus".toList))]))
        (fun _ => none)).fs)).outcome = .skipped ("File already exists, skipping") := by
  decide

/-- C1 contrast: in the non-native (temporary-file) case the claim's
    cleanup does happen: a mid-stream failure leaves neither the temporary
    nor the final file on disk. -/
theorem midFailTmpCleanup (env : Env) (entry : Entry) (fs : FS)
    (url : List Char) (written : Bytes)
    (hres : get_audio_enclosure entry = (some url, false)) (hurl : url ≠ [])
    (hnof : fs (opusName (sanitize_filename entry.title)) = none)
    (hstream : env.stream = .midFail written) :
    (download_episode env entry fs).outcome = .failed ("transport error") ∧
    (download_episode env entry fs).fs (tmpName (sanitize_filename entry.title)) = none ∧
    (download_episode env entry fs).fs (opusName (sanitize_filename entry.title)) = none := by
  unfold download_episode
  rw [hres]
  simp only []
  rw [if_neg (by
    intro hcontra
    rcases hcontra with h1 | h1
    · exact Option.noConfusion h1
    · exact hurl (Option.some.inj h1))]
  rw [if_neg (by simp [hnof])]
  rw [hstream]
  simp only [Bool.false_eq_true, if_false, Bool.not_false, Bool.true_and]
  rw [if_pos (by rw [fsSet_self]; rfl)]
  refine ⟨by trivial, by rw [fsSet_self], ?_⟩
  rw [fsSet_other _ _ (opusNeTmp _), fsSet_other _ _ (opusNeTmp _)]
  exact hnof

/-- Concrete instance of the temporary-file cleanup: mp3 episode, empty
    filesystem, mid-stream failure. -/
theorem midFailTmpCleanupConcrete :
    (download_episode (Env.mk (.midFail [3]) none)
      (Entry.mk ("t".toList) (some [Enclosure.mk (some ("u".toList)) (some ("audio/mpeg".toList))]))
      (fun _ => none)).outcome = .failed ("transport error") ∧
    (download_episode (Env.mk (.midFail [3]) none)
      (Entry.mk ("t".toList) (some [Enclosure.mk (some ("u".toList)) (some ("audio/mpeg".toList))]))
      (fun _ => none)).fs (tmpName (sanitize_filename ("t".toList))) = none ∧
    (download_episode (Env.mk (.midFail [3]) none)
      (Entry.mk ("t".toList) (some [Enclosure.mk (some ("u".toList)) (some ("audio/mpeg".toList))]))
      (fun _ => none)).fs (opusName (sanitize_filename ("t".toList))) = none :=
  midFailTmpCleanup _ _ _ ("u".toList) [3] (by decide) (by decide) rfl rfl

/-- C10: an episode whose first (and only) enclosure is opus-typed but has
    no href resolves to (none, true), and acquisition then skips it as
    having no supported audio URL, with no network call and the filesystem
    untouched. -/
theorem c10_opus_without_href :
    get_audio_enclosure
      (Entry.mk ("t".toList) (some [Enclosure.mk none (some ("audio/opus".toList))])) =
      (none, true) ∧
    download_episode (Env.mk (.ok [1]) none)
      (Entry.mk ("t".toList) (some [Enclosure.mk none (some ("audio/opus".toList))]))
      (fun _ => none) =
      ⟨(fun _ => none), .skipped ("No supported audio URL found."), false⟩ := by
  exact ⟨rfl, rfl⟩


end Podcast
